import Mathlib

/-!
Verification of the groupby grouping-and-dispatch engine.

Rust strings are modelled as lists of characters (`RStr`); byte-level
operations of the source (`str::len`, byte-range slicing) are modelled through
`byteLen`, `takeBytes` and `dropBytes`, where a slice that would panic because
an index is not a character boundary is modelled as `none`.
-/

namespace Groupby

/-- Model of Rust `&str` / `String`: a list of Unicode characters. -/
abbrev RStr := List Char

/-- Model of Rust `str::len`: the length in UTF-8 bytes. -/
def byteLen (s : RStr) : Nat := (s.map Char.utf8Size).sum

/-- Model of the byte slice `&s[0..n]`: the characters making up the first `n`
bytes, or `none` (a Rust panic) when `n` is not a character boundary.
`n` is assumed `≤ byteLen s`; past the end yields `none` as well. -/
def takeBytes : RStr → Nat → Option RStr
  | _, 0 => some []
  | [], _ + 1 => none
  | c :: rest, n + 1 =>
    if c.utf8Size ≤ n + 1 then
      (takeBytes rest (n + 1 - c.utf8Size)).map (fun r => c :: r)
    else none

/-- Model of the byte slice `&s[m..]`: the characters after the first `m`
bytes, or `none` (a Rust panic) when `m` is not a character boundary. -/
def dropBytes : RStr → Nat → Option RStr
  | l, 0 => some l
  | [], _ + 1 => none
  | c :: rest, n + 1 =>
    if c.utf8Size ≤ n + 1 then dropBytes rest (n + 1 - c.utf8Size) else none

/-- Embedding of `matchers::string::match_first_n_chars` (matchers/string.rs):
`if n > string.len() { string } else { &string[0..n] }`. -/
def match_first_n_chars (s : RStr) (n : Nat) : Option RStr :=
  if byteLen s < n then some s else takeBytes s n

/-- Embedding of `matchers::string::match_last_n_chars` (matchers/string.rs):
`if n > string.len() { string } else { &string[(string.len() - n)..] }`. -/
def match_last_n_chars (s : RStr) (n : Nat) : Option RStr :=
  if byteLen s < n then some s else dropBytes s (byteLen s - n)

theorem byteLen_cons (c : Char) (s : RStr) :
    byteLen (c :: s) = c.utf8Size + byteLen s := by
  simp [byteLen]

theorem one_le_utf8Size (c : Char) : 1 ≤ c.utf8Size := by
  rcases Char.utf8Size_eq c with h | h | h | h <;> simp [h]

theorem takeBytes_byteLen (s : RStr) : takeBytes s (byteLen s) = some s := by
  induction s with
  | nil => simp [takeBytes, byteLen]
  | cons c rest ih =>
    have h1 := one_le_utf8Size c
    have hb : byteLen (c :: rest) = c.utf8Size + byteLen rest := byteLen_cons c rest
    rcases Nat.exists_eq_add_of_le h1 with ⟨k, hk⟩
    have hpos : byteLen (c :: rest) = (c.utf8Size + byteLen rest - 1) + 1 := by
      omega
    rw [hpos]
    simp only [takeBytes]
    have hle : c.utf8Size ≤ (c.utf8Size + byteLen rest - 1) + 1 := by omega
    rw [if_pos hle]
    have : (c.utf8Size + byteLen rest - 1) + 1 - c.utf8Size = byteLen rest := by omega
    rw [this, ih]
    rfl

theorem takeBytes_spec (s : RStr) (n : Nat) (r : RStr)
    (h : takeBytes s n = some r) : r <+: s ∧ byteLen r = n := by
  induction s generalizing n r with
  | nil =>
    cases n with
    | zero =>
      simp [takeBytes] at h
      subst h
      exact ⟨List.nil_prefix, rfl⟩
    | succ m => simp [takeBytes] at h
  | cons c rest ih =>
    cases n with
    | zero =>
      simp [takeBytes] at h
      subst h
      exact ⟨List.nil_prefix, rfl⟩
    | succ m =>
      simp only [takeBytes] at h
      by_cases hle : c.utf8Size ≤ m + 1
      · rw [if_pos hle] at h
        cases htb : takeBytes rest (m + 1 - c.utf8Size) with
        | none => rw [htb] at h; simp at h
        | some r0 =>
          rw [htb] at h
          simp at h
          obtain ⟨hpre, hlen⟩ := ih _ _ htb
          subst h
          constructor
          · obtain ⟨t, ht⟩ := hpre
            exact ⟨t, by rw [List.cons_append, ht]⟩
          · rw [byteLen_cons, hlen]
            omega
      · rw [if_neg hle] at h
        simp at h

theorem dropBytes_zero (s : RStr) : dropBytes s 0 = some s := by
  cases s <;> rfl

theorem dropBytes_byteLen (s : RStr) : dropBytes s (byteLen s) = some [] := by
  induction s with
  | nil => simp [dropBytes, byteLen]
  | cons c rest ih =>
    have h1 := one_le_utf8Size c
    have hpos : byteLen (c :: rest) = (c.utf8Size + byteLen rest - 1) + 1 := by
      rw [byteLen_cons]; omega
    rw [hpos]
    simp only [dropBytes]
    have hle : c.utf8Size ≤ (c.utf8Size + byteLen rest - 1) + 1 := by omega
    rw [if_pos hle]
    have : (c.utf8Size + byteLen rest - 1) + 1 - c.utf8Size = byteLen rest := by omega
    rw [this, ih]

theorem dropBytes_spec (s : RStr) (n : Nat) (r : RStr)
    (h : dropBytes s n = some r) : r <:+ s ∧ byteLen r = byteLen s - n := by
  induction s generalizing n r with
  | nil =>
    cases n with
    | zero =>
      rw [dropBytes_zero] at h
      simp at h
      subst h
      exact ⟨List.suffix_rfl, rfl⟩
    | succ m => simp [dropBytes] at h
  | cons c rest ih =>
    cases n with
    | zero =>
      rw [dropBytes_zero] at h
      simp at h
      subst h
      exact ⟨List.suffix_rfl, by omega⟩
    | succ m =>
      simp only [dropBytes] at h
      by_cases hle : c.utf8Size ≤ m + 1
      · rw [if_pos hle] at h
        obtain ⟨hsuf, hlen⟩ := ih _ _ h
        refine ⟨hsuf.trans (List.suffix_cons c rest), ?_⟩
        rw [hlen, byteLen_cons]
        omega
      · rw [if_neg hle] at h
        simp at h

/-- Claim C4 as stated fails: `match_first_n_chars` counts bytes, not
characters. On `"héllo"` (five characters, six bytes) with `n = 5` it returns
the four characters `"héll"` (the first five bytes), not the first five
characters. -/
theorem first_n_chars_counts_bytes_not_chars :
    match_first_n_chars "héllo".data 5 ≠ some ("héllo".data.take 5) := by
  decide

/-- Claim C4, amended: for every string `s` and every `n`,
`match_first_n_chars` and `match_last_n_chars` operate on bytes: `n = 0`
yields the empty string, `n ≥ byteLen s` yields all of `s`, and whenever a
slice is returned (no panic) it is a prefix (resp. suffix) of `s` of byte
length exactly `min n (byteLen s)`. -/
theorem first_last_n_chars_byte_semantics (s : RStr) (n : Nat) :
    (n = 0 → match_first_n_chars s n = some [] ∧
      match_last_n_chars s n = some []) ∧
    (byteLen s ≤ n → match_first_n_chars s n = some s ∧
      match_last_n_chars s n = some s) ∧
    (∀ r, match_first_n_chars s n = some r →
      r <+: s ∧ byteLen r = min n (byteLen s)) ∧
    (∀ r, match_last_n_chars s n = some r →
      r <:+ s ∧ byteLen r = min n (byteLen s)) := by
  refine ⟨?_, ?_, ?_, ?_⟩
  · rintro rfl
    constructor
    · have h0 : takeBytes s 0 = some [] := by cases s <;> rfl
      simp [match_first_n_chars, h0]
    · simp [match_last_n_chars, dropBytes_byteLen]
  · intro hle
    rcases Nat.lt_or_ge (byteLen s) n with hlt | hge
    · constructor <;> simp [match_first_n_chars, match_last_n_chars, hlt]
    · have heq : n = byteLen s := by omega
      subst heq
      constructor
      · simp [match_first_n_chars, takeBytes_byteLen]
      · simp [match_last_n_chars, dropBytes_zero]
  · intro r hr
    rw [match_first_n_chars] at hr
    by_cases hlt : byteLen s < n
    · rw [if_pos hlt] at hr
      simp at hr
      subst hr
      exact ⟨List.prefix_rfl, by omega⟩
    · rw [if_neg hlt] at hr
      obtain ⟨hpre, hlen⟩ := takeBytes_spec s n r hr
      exact ⟨hpre, by omega⟩
  · intro r hr
    rw [match_last_n_chars] at hr
    by_cases hlt : byteLen s < n
    · rw [if_pos hlt] at hr
      simp at hr
      subst hr
      exact ⟨List.suffix_rfl, by omega⟩
    · rw [if_neg hlt] at hr
      obtain ⟨hsuf, hlen⟩ := dropBytes_spec s (byteLen s - n) r hr
      exact ⟨hsuf, by omega⟩

/-- Witness for the amended C4 theorem at concrete inputs. -/
theorem first_last_n_chars_byte_semantics_witness :
    byteLen "Hello, world".data ≤ 20 ∧
    match_first_n_chars "Hello, world".data 20 = some "Hello, world".data := by
  refine ⟨by decide, ?_⟩
  exact ((first_last_n_chars_byte_semantics "Hello, world".data 20).2.1
    (by decide)).1

/-- Model of `filename.rfind('.')`: the index of the last `'.'` in the string,
if any. (The source works with the byte index; because `'.'` occupies one
byte, the tests `index = 0` and `index ≥ len - 1` and the slice starting right
after the dot coincide with their character-index counterparts, so the
character index is used here.) -/
def rfindDot : RStr → Option Nat
  | [] => none
  | c :: rest =>
    match rfindDot rest with
    | some i => some (i + 1)
    | none => if c = '.' then some 0 else none

/-- Embedding of `matchers::string::match_file_extension` (matchers/string.rs):
`match filename.rfind('.') { Some(0) => None, Some(i) if i >= filename.len() -
1 => None, Some(i) => filename.get((i + 1)..), None => None }`. -/
def match_file_extension (f : RStr) : Option RStr :=
  match rfindDot f with
  | some 0 => none
  | some i => if f.length - 1 ≤ i then none else some (f.drop (i + 1))
  | none => none

theorem rfindDot_eq_none (f : RStr) : rfindDot f = none ↔ '.' ∉ f := by
  induction f with
  | nil => simp [rfindDot]
  | cons c rest ih =>
    simp only [rfindDot]
    cases h : rfindDot rest with
    | some i =>
      have hm : '.' ∈ rest := by
        by_contra hn
        rw [ih.mpr hn] at h
        exact Option.noConfusion h
      simp [List.mem_cons, hm]
    | none =>
      have hrest : '.' ∉ rest := ih.mp h
      by_cases hc : c = '.'
      · simp [hc]
      · simp only [if_neg hc]
        constructor
        · intro _
          simp only [List.mem_cons, not_or]
          exact ⟨fun he => hc he.symm, hrest⟩
        · intro _
          trivial

theorem rfindDot_spec (f : RStr) (i : Nat) (h : rfindDot f = some i) :
    f.get? i = some '.' ∧ '.' ∉ f.drop (i + 1) := by
  induction f generalizing i with
  | nil => simp [rfindDot] at h
  | cons c rest ih =>
    simp only [rfindDot] at h
    cases hr : rfindDot rest with
    | some j =>
      rw [hr] at h
      simp at h
      subst h
      obtain ⟨h1, h2⟩ := ih j hr
      exact ⟨by simpa using h1, by simpa using h2⟩
    | none =>
      rw [hr] at h
      by_cases hc : c = '.'
      · rw [if_pos hc] at h
        simp at h
        subst h
        refine ⟨by simp [hc], ?_⟩
        simpa using (rfindDot_eq_none rest).mp hr
      · rw [if_neg hc] at h
        simp at h

theorem rfindDot_last (f : RStr) (i : Nat) (hi : f.get? i = some '.')
    (hnd : '.' ∉ f.drop (i + 1)) : rfindDot f = some i := by
  induction f generalizing i with
  | nil => simp at hi
  | cons c rest ih =>
    cases i with
    | zero =>
      simp at hi
      have hrest : '.' ∉ rest := by simpa using hnd
      simp [rfindDot, (rfindDot_eq_none rest).mpr hrest, hi]
    | succ j =>
      have hj : rest.get? j = some '.' := by simpa using hi
      have hndr : '.' ∉ rest.drop (j + 1) := by simpa using hnd
      simp [rfindDot, ih j hj hndr]

/-- Claim C8 as stated fails: `"a.b."` contains a `'.'` (at index 1) that is
neither its first nor its last character, yet `match_file_extension` returns
`none`, because the code keys on the *last* `'.'`, which here is the final
character. -/
theorem file_extension_interior_dot_counterexample :
    ("a.b.".data.get? 1 = some '.' ∧ 1 ≠ 0 ∧
      1 ≠ "a.b.".data.length - 1) ∧
    match_file_extension "a.b.".data = none := by
  decide

/-- Claim C8, amended: `match_file_extension` returns the substring after the
*last* `'.'` exactly when that last `'.'` is neither the first nor the last
character; it returns `none` when there is no `'.'`, when the last `'.'` is
the first character, or when the last `'.'` is the final character. -/
theorem file_extension_last_dot (f : RStr) :
    ('.' ∉ f → match_file_extension f = none) ∧
    (∀ i, f.get? i = some '.' → '.' ∉ f.drop (i + 1) →
      match_file_extension f =
        if i = 0 ∨ f.length ≤ i + 1 then none else some (f.drop (i + 1))) := by
  constructor
  · intro hno
    rw [match_file_extension, (rfindDot_eq_none f).mpr hno]
  · intro i hi hnd
    have hfind := rfindDot_last f i hi hnd
    have hilt : i < f.length := by
      by_contra hge
      rw [List.get?_eq_none.mpr (by omega)] at hi
      exact Option.noConfusion hi
    rw [match_file_extension, hfind]
    cases i with
    | zero => simp
    | succ j =>
      have : ¬ (j + 1 = 0) := by omega
      simp only [this, false_or]
      by_cases hlast : f.length ≤ j + 1 + 1
      · rw [if_pos (by omega), if_pos (by omega)]
      · rw [if_neg (by omega), if_neg (by omega)]

/-- Witness for the amended C8 theorem: `"a.tar.gz"` yields `some "gz"`. -/
theorem file_extension_last_dot_witness :
    "a.tar.gz".data.get? 5 = some '.' ∧ '.' ∉ "a.tar.gz".data.drop 6 ∧
    match_file_extension "a.tar.gz".data =
      (if 5 = 0 ∨ "a.tar.gz".data.length ≤ 6 then none
       else some ("a.tar.gz".data.drop 6)) :=
  ⟨by decide, by decide,
    (file_extension_last_dot "a.tar.gz".data).2 5 (by decide) (by decide)⟩

section GroupedCollections

variable {K V : Type}

/-- Lookup in an association-list model of a map; mirrors `BTreeMap::get` /
`HashMap::get` returning the list of values stored at `key`, if any. -/
def lookupA [DecidableEq K] : List (K × List V) → K → Option (List V)
  | [], _ => none
  | (k', vs) :: rest, k => if k = k' then some vs else lookupA rest k

/-- Embedding of `GroupedCollection::add` for `BTreeMap<Key, Vec<Value>>`
(grouped_collections/btree_map.rs): an occupied entry pushes `value` onto the
existing `Vec`, a vacant slot inserts `vec![value]`. The `BTreeMap` is
modelled as a key-sorted association list. -/
def addB [LinearOrder K] : List (K × List V) → K → V → List (K × List V)
  | [], k, v => [(k, [v])]
  | (k', vs) :: rest, k, v =>
    if k = k' then (k', vs ++ [v]) :: rest
    else if k < k' then (k, [v]) :: (k', vs) :: rest
    else (k', vs) :: addB rest k v

/-- Embedding of `GroupedCollection::add` for `HashMap<Key, Vec<Value>>`
(grouped_collections/hash_map.rs): same entry logic; the `HashMap` is
modelled as an association list whose iteration order is left unspecified by
the interface (here: first-insertion order). -/
def addH [DecidableEq K] : List (K × List V) → K → V → List (K × List V)
  | [], k, v => [(k, [v])]
  | (k', vs) :: rest, k, v =>
    if k = k' then (k', vs ++ [v]) :: rest
    else (k', vs) :: addH rest k v

/-- A whole run of `add` calls against an initially empty `BTreeMap`. -/
def buildB [LinearOrder K] (adds : List (K × V)) : List (K × List V) :=
  adds.foldl (fun m kv => addB m kv.1 kv.2) []

/-- A whole run of `add` calls against an initially empty `HashMap`. -/
def buildH [DecidableEq K] (adds : List (K × V)) : List (K × List V) :=
  adds.foldl (fun m kv => addH m kv.1 kv.2) []

/-- The values added under key `k` by a sequence of `add(k, v)` calls, in
arrival order. -/
def groupSpec [DecidableEq K] (adds : List (K × V)) (k : K) : List V :=
  (adds.filter (fun kv => kv.1 = k)).map Prod.snd

/-- How a run of adds extends the list stored at one key. -/
def extendGroup (old : Option (List V)) (new : List V) : Option (List V) :=
  match old, new with
  | some oldv, l => some (oldv ++ l)
  | none, [] => none
  | none, l => some l

/-- Key-sortedness invariant of the `BTreeMap` model. -/
def SortedKeys [LinearOrder K] (m : List (K × List V)) : Prop :=
  List.Pairwise (· < ·) (m.map Prod.fst)

theorem lookupA_eq_none_iff [DecidableEq K] (m : List (K × List V)) (k : K) :
    lookupA m k = none ↔ k ∉ m.map Prod.fst := by
  induction m with
  | nil => simp [lookupA]
  | cons e rest ih =>
    obtain ⟨k0, vs0⟩ := e
    by_cases h : k = k0
    · subst h
      simp [lookupA]
    · simp [lookupA, if_neg h, ih, h]

theorem lookupA_addH [DecidableEq K] (m : List (K × List V)) (k k' : K)
    (v : V) :
    lookupA (addH m k v) k' =
      if k' = k then some ((lookupA m k).getD [] ++ [v]) else lookupA m k' := by
  induction m with
  | nil =>
    by_cases h : k' = k <;> simp [addH, lookupA, h]
  | cons e rest ih =>
    obtain ⟨k0, vs0⟩ := e
    by_cases hk : k = k0
    · subst hk
      by_cases h : k' = k <;> simp [addH, lookupA, h]
    · simp only [addH, if_neg hk]
      by_cases h : k' = k0
      · subst h
        rw [if_neg (by exact fun he => hk he.symm)]
        simp [lookupA, fun he => hk (Eq.symm he)]
      · simp only [lookupA, if_neg h]
        rw [ih]
        by_cases h2 : k' = k
        · subst h2
          simp [lookupA, hk]
        · rw [if_neg h2, if_neg h2]

theorem sortedKeys_head_notMem [LinearOrder K] (k0 : K) (vs0 : List V)
    (rest : List (K × List V)) (h : SortedKeys ((k0, vs0) :: rest)) (k : K)
    (hk : k ≤ k0) : lookupA rest k = none := by
  rw [lookupA_eq_none_iff]
  intro hmem
  simp only [SortedKeys, List.map_cons, List.pairwise_cons] at h
  exact absurd (h.1 k hmem) (not_lt.mpr hk)

theorem lookupA_addB [LinearOrder K] (m : List (K × List V)) (hm : SortedKeys m)
    (k k' : K) (v : V) :
    lookupA (addB m k v) k' =
      if k' = k then some ((lookupA m k).getD [] ++ [v]) else lookupA m k' := by
  induction m with
  | nil =>
    by_cases h : k' = k <;> simp [addB, lookupA, h]
  | cons e rest ih =>
    obtain ⟨k0, vs0⟩ := e
    have hrest : SortedKeys rest := by
      simp only [SortedKeys, List.map_cons, List.pairwise_cons] at hm
      exact hm.2
    by_cases hk : k = k0
    · subst hk
      by_cases h : k' = k <;> simp [addB, lookupA, h]
    · simp only [addB, if_neg hk]
      by_cases hlt : k < k0
      · rw [if_pos hlt]
        have hnone := sortedKeys_head_notMem k0 vs0 rest hm k (le_of_lt hlt)
        by_cases h : k' = k
        · subst h
          simp [lookupA, hk, hnone]
        · simp [lookupA, h]
      · rw [if_neg hlt]
        by_cases h : k' = k0
        · subst h
          rw [if_neg (by exact fun he => hk he.symm)]
          simp [lookupA]
        · simp only [lookupA, if_neg h]
          rw [ih hrest]
          by_cases h2 : k' = k
          · subst h2
            simp [lookupA, hk]
          · rw [if_neg h2, if_neg h2]

theorem addB_keys_mem [LinearOrder K] (m : List (K × List V)) (k a : K)
    (v : V) :
    a ∈ (addB m k v).map Prod.fst ↔ a ∈ m.map Prod.fst ∨ a = k := by
  induction m with
  | nil => simp [addB]
  | cons e rest ih =>
    obtain ⟨k0, vs0⟩ := e
    by_cases hk : k = k0
    · subst hk
      simp only [addB, eq_self_iff_true, if_true, List.map_cons, List.mem_cons]
      tauto
    · simp only [addB, if_neg hk]
      by_cases hlt : k < k0
      · rw [if_pos hlt]
        simp only [List.map_cons, List.mem_cons]
        constructor
        · rintro (h | h | h)
          · exact Or.inr h
          · exact Or.inl (Or.inl h)
          · exact Or.inl (Or.inr h)
        · rintro ((h | h) | h)
          · exact Or.inr (Or.inl h)
          · exact Or.inr (Or.inr h)
          · exact Or.inl h
      · rw [if_neg hlt]
        simp only [List.map_cons, List.mem_cons]
        rw [ih]
        tauto

theorem addH_keys_mem [DecidableEq K] (m : List (K × List V)) (k a : K)
    (v : V) :
    a ∈ (addH m k v).map Prod.fst ↔ a ∈ m.map Prod.fst ∨ a = k := by
  induction m with
  | nil => simp [addH]
  | cons e rest ih =>
    obtain ⟨k0, vs0⟩ := e
    by_cases hk : k = k0
    · subst hk
      simp only [addH, eq_self_iff_true, if_true, List.map_cons, List.mem_cons]
      tauto
    · simp only [addH, if_neg hk]
      simp only [List.map_cons, List.mem_cons]
      rw [ih]
      tauto

theorem addB_sorted [LinearOrder K] (m : List (K × List V)) (k : K) (v : V)
    (hm : SortedKeys m) : SortedKeys (addB m k v) := by
  induction m with
  | nil => simp [addB, SortedKeys]
  | cons e rest ih =>
    obtain ⟨k0, vs0⟩ := e
    simp only [SortedKeys, List.map_cons, List.pairwise_cons] at hm
    obtain ⟨hbound, hrest⟩ := hm
    by_cases hk : k = k0
    · subst hk
      simp only [addB, eq_self_iff_true, if_true, SortedKeys, List.map_cons,
        List.pairwise_cons]
      exact ⟨hbound, hrest⟩
    · simp only [addB, if_neg hk]
      by_cases hlt : k < k0
      · rw [if_pos hlt]
        simp only [SortedKeys, List.map_cons, List.pairwise_cons]
        refine ⟨?_, hbound, hrest⟩
        intro y hy
        simp only [List.mem_cons] at hy
        rcases hy with rfl | hy
        · exact hlt
        · exact lt_trans hlt (hbound y hy)
      · rw [if_neg hlt]
        have hgt : k0 < k := lt_of_le_of_ne (not_lt.mp hlt) (Ne.symm hk)
        simp only [SortedKeys, List.map_cons, List.pairwise_cons]
        refine ⟨?_, ih hrest⟩
        intro y hy
        rcases (addB_keys_mem rest k y v).mp hy with h | h
        · exact hbound y h
        · rw [h]
          exact hgt

theorem groupSpec_cons [DecidableEq K] (k0 : K) (v0 : V) (rest : List (K × V))
    (k : K) :
    groupSpec ((k0, v0) :: rest) k =
      if k0 = k then v0 :: groupSpec rest k else groupSpec rest k := by
  by_cases h : k0 = k <;> simp [groupSpec, h]

theorem extendGroup_step (old : Option (List V)) (v0 : V) (rest : List V) :
    extendGroup (some (old.getD [] ++ [v0])) rest = extendGroup old (v0 :: rest) := by
  cases old with
  | some l => simp [extendGroup]
  | none => simp [extendGroup]

theorem foldH_lookup [DecidableEq K] (adds : List (K × V))
    (m : List (K × List V)) (k : K) :
    lookupA (adds.foldl (fun m kv => addH m kv.1 kv.2) m) k =
      extendGroup (lookupA m k) (groupSpec adds k) := by
  induction adds generalizing m with
  | nil =>
    cases h : lookupA m k <;> simp [groupSpec, extendGroup, h]
  | cons kv rest ih =>
    obtain ⟨k0, v0⟩ := kv
    rw [List.foldl_cons, ih, groupSpec_cons, lookupA_addH]
    by_cases h : k = k0
    · subst h
      rw [if_pos rfl, if_pos rfl]
      exact extendGroup_step (lookupA m k) v0 (groupSpec rest k)
    · rw [if_neg h, if_neg (fun he => h he.symm)]

theorem foldB_lookup [LinearOrder K] (adds : List (K × V))
    (m : List (K × List V)) (hm : SortedKeys m) (k : K) :
    lookupA (adds.foldl (fun m kv => addB m kv.1 kv.2) m) k =
      extendGroup (lookupA m k) (groupSpec adds k) := by
  induction adds generalizing m with
  | nil =>
    cases h : lookupA m k <;> simp [groupSpec, extendGroup, h]
  | cons kv rest ih =>
    obtain ⟨k0, v0⟩ := kv
    rw [List.foldl_cons, ih (addB m k0 v0) (addB_sorted m k0 v0 hm),
      groupSpec_cons, lookupA_addB m hm]
    by_cases h : k = k0
    · subst h
      rw [if_pos rfl, if_pos rfl]
      exact extendGroup_step (lookupA m k) v0 (groupSpec rest k)
    · rw [if_neg h, if_neg (fun he => h he.symm)]

theorem foldH_keys [DecidableEq K] (adds : List (K × V))
    (m : List (K × List V)) (a : K) :
    a ∈ ((adds.foldl (fun m kv => addH m kv.1 kv.2) m).map Prod.fst) ↔
      a ∈ m.map Prod.fst ∨ a ∈ adds.map Prod.fst := by
  induction adds generalizing m with
  | nil => simp
  | cons kv rest ih =>
    obtain ⟨k0, v0⟩ := kv
    rw [List.foldl_cons, ih]
    rw [addH_keys_mem]
    simp only [List.map_cons, List.mem_cons]
    tauto

theorem foldB_keys [LinearOrder K] (adds : List (K × V))
    (m : List (K × List V)) (a : K) :
    a ∈ ((adds.foldl (fun m kv => addB m kv.1 kv.2) m).map Prod.fst) ↔
      a ∈ m.map Prod.fst ∨ a ∈ adds.map Prod.fst := by
  induction adds generalizing m with
  | nil => simp
  | cons kv rest ih =>
    obtain ⟨k0, v0⟩ := kv
    rw [List.foldl_cons, ih]
    rw [addB_keys_mem]
    simp only [List.map_cons, List.mem_cons]
    tauto

theorem addH_keys_eq [DecidableEq K] (m : List (K × List V)) (k : K) (v : V) :
    (addH m k v).map Prod.fst =
      if k ∈ m.map Prod.fst then m.map Prod.fst else m.map Prod.fst ++ [k] := by
  induction m with
  | nil => simp [addH]
  | cons e rest ih =>
    obtain ⟨k0, vs0⟩ := e
    by_cases hk : k = k0
    · subst hk
      simp [addH]
    · simp only [addH, if_neg hk, List.map_cons, ih]
      by_cases hmem : k ∈ rest.map Prod.fst
      · rw [if_pos hmem, if_pos (by simp [hmem])]
      · rw [if_neg hmem,
          if_neg (by simp [hmem, fun he : k = k0 => hk he])]
        simp

theorem addH_nodup [DecidableEq K] (m : List (K × List V)) (k : K) (v : V)
    (hm : (m.map Prod.fst).Nodup) : ((addH m k v).map Prod.fst).Nodup := by
  rw [addH_keys_eq]
  by_cases hmem : k ∈ m.map Prod.fst
  · rwa [if_pos hmem]
  · rw [if_neg hmem]
    rw [List.nodup_append]
    refine ⟨hm, List.nodup_singleton k, ?_⟩
    intro a ha hb
    rw [List.mem_singleton] at hb
    subst hb
    exact hmem ha

theorem foldH_nodup [DecidableEq K] (adds : List (K × V))
    (m : List (K × List V)) (hm : (m.map Prod.fst).Nodup) :
    (((adds.foldl (fun m kv => addH m kv.1 kv.2) m)).map Prod.fst).Nodup := by
  induction adds generalizing m with
  | nil => exact hm
  | cons kv rest ih =>
    exact ih (addH m kv.1 kv.2) (addH_nodup m kv.1 kv.2 hm)

theorem foldB_sorted [LinearOrder K] (adds : List (K × V))
    (m : List (K × List V)) (hm : SortedKeys m) :
    SortedKeys (adds.foldl (fun m kv => addB m kv.1 kv.2) m) := by
  induction adds generalizing m with
  | nil => exact hm
  | cons kv rest ih =>
    exact ih (addB m kv.1 kv.2) (addB_sorted m kv.1 kv.2 hm)

theorem buildB_sorted [LinearOrder K] (adds : List (K × V)) :
    SortedKeys (buildB adds) :=
  foldB_sorted adds [] (by simp [SortedKeys])

/-- Claim C5: for both `GroupedCollection` implementations and any sequence of
`add(k, v)` calls, `get(k)` returns exactly the values added under `k` in
arrival order (a new key creates a singleton, an existing key appends);
iteration yields every distinct key exactly once (no omissions, no
duplicates); and the `BTreeMap` implementation iterates in sorted key order. -/
theorem grouped_collection_round_trip {K V : Type} [LinearOrder K]
    (adds : List (K × V)) (k : K) :
    (lookupA (buildB adds) k = extendGroup none (groupSpec adds k)) ∧
    (lookupA (buildH adds) k = extendGroup none (groupSpec adds k)) ∧
    (∀ v : V, lookupA (buildB (adds ++ [(k, v)])) k =
      some ((lookupA (buildB adds) k).getD [] ++ [v])) ∧
    (∀ v : V, lookupA (buildH (adds ++ [(k, v)])) k =
      some ((lookupA (buildH adds) k).getD [] ++ [v])) ∧
    ((buildB adds).map Prod.fst).Nodup ∧
    ((buildH adds).map Prod.fst).Nodup ∧
    (k ∈ (buildB adds).map Prod.fst ↔ k ∈ adds.map Prod.fst) ∧
    (k ∈ (buildH adds).map Prod.fst ↔ k ∈ adds.map Prod.fst) ∧
    List.Pairwise (· < ·) ((buildB adds).map Prod.fst) := by
  refine ⟨?_, ?_, ?_, ?_, ?_, ?_, ?_, ?_, ?_⟩
  · rw [buildB, foldB_lookup adds [] (by simp [SortedKeys]) k]
    rfl
  · rw [buildH, foldH_lookup adds [] k]
    rfl
  · intro v
    rw [buildB, List.foldl_append]
    show lookupA (addB (buildB adds) k v) k = _
    rw [lookupA_addB (buildB adds) (buildB_sorted adds), if_pos rfl]
  · intro v
    rw [buildH, List.foldl_append]
    show lookupA (addH (buildH adds) k v) k = _
    rw [lookupA_addH (buildH adds), if_pos rfl]
  · exact (buildB_sorted adds).imp ne_of_lt
  · exact foldH_nodup adds [] (by simp)
  · rw [buildB, foldB_keys]
    simp
  · rw [buildH, foldH_keys]
    simp
  · exact buildB_sorted adds

end GroupedCollections

section Counter

/-- Embedding of `matchers::string::match_counter` (matchers/string.rs): the
process-wide `CounterUsize` is modelled as explicitly threaded state;
`COUNTER.inc()` returns the current value and increments it. -/
def match_counter (counter : Nat) : Nat × Nat := (counter, counter + 1)

/-- The results of `n` successive `match_counter` calls starting from counter
state `c`. -/
def counterResults : Nat → Nat → List Nat
  | _, 0 => []
  | c, n + 1 => (match_counter c).1 :: counterResults (match_counter c).2 n

theorem counterResults_eq_range' (c n : Nat) :
    counterResults c n = List.range' c n := by
  induction n generalizing c with
  | zero => rfl
  | succ k ih =>
    show (match_counter c).1 :: counterResults (match_counter c).2 k = _
    rw [match_counter]
    show c :: counterResults (c + 1) k = _
    rw [ih (c + 1)]
    rfl

theorem pairwise_lt_counterResults (c n : Nat) :
    List.Pairwise (· < ·) (counterResults c n) := by
  rw [counterResults_eq_range']
  induction n generalizing c with
  | zero => simp
  | succ k ih =>
    rw [List.range'_succ]
    rw [List.pairwise_cons]
    refine ⟨?_, ih (c + 1)⟩
    intro y hy
    have := (List.mem_range'_1.mp hy).1
    omega

/-- Digits of `n` in base 10, least significant first, with structural fuel. -/
def toDigitsRevAux : Nat → Nat → List Nat
  | _, 0 => []
  | n, fuel + 1 =>
    if n < 10 then [n] else n % 10 :: toDigitsRevAux (n / 10) fuel

/-- Digits of `n` in base 10, least significant first. -/
def toDigitsRev (n : Nat) : List Nat := toDigitsRevAux n (n + 1)

/-- Decimal rendering of a natural number; model of Rust `usize::to_string()`
(most significant digit first, `'0'`..`'9'`, and `0` renders as `"0"`). -/
def natRepr (n : Nat) : String := ⟨(toDigitsRev n).reverse.map Nat.digitChar⟩

/-- Decoding of a least-significant-first digit list. -/
def fromDigitsRev : List Nat → Nat
  | [] => 0
  | d :: ds => d + 10 * fromDigitsRev ds

theorem fromDigitsRev_toDigitsRevAux :
    ∀ fuel n, n < fuel → fromDigitsRev (toDigitsRevAux n fuel) = n := by
  intro fuel
  induction fuel with
  | zero => omega
  | succ f ih =>
    intro n h
    show fromDigitsRev (if n < 10 then [n] else n % 10 :: toDigitsRevAux (n / 10) f) = n
    by_cases h10 : n < 10
    · rw [if_pos h10]
      simp [fromDigitsRev]
    · rw [if_neg h10]
      show n % 10 + 10 * fromDigitsRev (toDigitsRevAux (n / 10) f) = n
      rw [ih (n / 10) (by omega)]
      omega

theorem toDigitsRevAux_lt :
    ∀ fuel n d, d ∈ toDigitsRevAux n fuel → d < 10 := by
  intro fuel
  induction fuel with
  | zero =>
    intro n d hd
    simp [toDigitsRevAux] at hd
  | succ f ih =>
    intro n d hd
    rw [show toDigitsRevAux n (f + 1) =
        (if n < 10 then [n] else n % 10 :: toDigitsRevAux (n / 10) f) from rfl] at hd
    by_cases h10 : n < 10
    · rw [if_pos h10] at hd
      simp at hd
      omega
    · rw [if_neg h10] at hd
      rcases List.mem_cons.mp hd with rfl | hd
      · omega
      · exact ih (n / 10) d hd

theorem digitChar_injOn :
    ∀ a < 10, ∀ b < 10, Nat.digitChar a = Nat.digitChar b → a = b := by
  decide

theorem map_digitChar_inj :
    ∀ l1 l2 : List Nat, (∀ d ∈ l1, d < 10) → (∀ d ∈ l2, d < 10) →
      l1.map Nat.digitChar = l2.map Nat.digitChar → l1 = l2 := by
  intro l1
  induction l1 with
  | nil =>
    intro l2 _ _ h
    cases l2 with
    | nil => rfl
    | cons b t => simp at h
  | cons a t1 ih =>
    intro l2 h1 h2 h
    cases l2 with
    | nil => simp at h
    | cons b t2 =>
      simp only [List.map_cons, List.cons.injEq] at h
      have ha : a = b :=
        digitChar_injOn a (h1 a (List.mem_cons_self a t1)) b
          (h2 b (List.mem_cons_self b t2)) h.1
      have ht : t1 = t2 :=
        ih t2 (fun d hd => h1 d (List.mem_cons_of_mem a hd))
          (fun d hd => h2 d (List.mem_cons_of_mem b hd)) h.2
      rw [ha, ht]

theorem natRepr_injective (m n : Nat) (h : natRepr m = natRepr n) : m = n := by
  have hdata : (toDigitsRev m).reverse.map Nat.digitChar =
      (toDigitsRev n).reverse.map Nat.digitChar := congrArg String.data h
  have hrev : (toDigitsRev m).reverse = (toDigitsRev n).reverse :=
    map_digitChar_inj _ _
      (fun d hd => toDigitsRevAux_lt (m + 1) m d (List.mem_reverse.mp hd))
      (fun d hd => toDigitsRevAux_lt (n + 1) n d (List.mem_reverse.mp hd)) hdata
  have hdig : toDigitsRev m = toDigitsRev n := List.reverse_injective hrev
  have := congrArg fromDigitsRev hdig
  rwa [toDigitsRev, toDigitsRev, fromDigitsRev_toDigitsRevAux (m + 1) m (by omega),
    fromDigitsRev_toDigitsRevAux (n + 1) n (by omega)] at this

/-- Embedding of a run of `Groupers::group_by_counter` (groupers/string.rs)
over a list of lines: for each line, `let key = match_counter().to_string();
self.add(key, line)`; shown against the `HashMap` collection (the grouper is
generic over `GroupedCollection`), with the counter threaded as state
starting at `c0`. -/
def group_by_counter_all (tokens : List String) (c0 : Nat) :
    List (String × List String) :=
  (tokens.foldl
    (fun (p : List (String × List String) × Nat) t =>
      (addH p.1 (natRepr (match_counter p.2).1) t, (match_counter p.2).2))
    ([], c0)).1

theorem counter_groups_singleton_aux (tokens : List String) :
    ∀ (m : List (String × List String)) (c0 : Nat),
      (∀ c, c0 ≤ c → lookupA m (natRepr c) = none) →
      (∀ k vs, lookupA m k = some vs → vs.length = 1) →
      ∀ k vs,
        lookupA
          ((tokens.foldl
            (fun (p : List (String × List String) × Nat) t =>
              (addH p.1 (natRepr (match_counter p.2).1) t, (match_counter p.2).2))
            (m, c0)).1) k = some vs → vs.length = 1 := by
  induction tokens with
  | nil =>
    intro m c0 _ hsing k vs h
    exact hsing k vs h
  | cons t rest ih =>
    intro m c0 hfresh hsing k vs h
    rw [List.foldl_cons] at h
    refine ih (addH m (natRepr (match_counter c0).1) t) (match_counter c0).2
      ?_ ?_ k vs h
    · intro c hc
      rw [lookupA_addH m]
      rw [if_neg (fun he => by
        have := natRepr_injective c (match_counter c0).1 he
        simp [match_counter] at this hc
        omega)]
      exact hfresh c (by simp [match_counter] at hc ⊢; omega)
    · intro k' vs' h'
      rw [lookupA_addH m] at h'
      by_cases he : k' = natRepr (match_counter c0).1
      · rw [if_pos he] at h'
        rw [hfresh (match_counter c0).1 (by simp [match_counter])] at h'
        simp at h'
        rw [← h']
        rfl
      · rw [if_neg he] at h'
        exact hsing k' vs' h'

/-- Claim C9: with the process-wide counter modelled as threaded state
starting at 0, the k-th call of `match_counter` returns k-1 (the results of n
calls are exactly `0, 1, ..., n-1`), the results are strictly increasing and
pairwise distinct, and grouping tokens with `group_by_counter` places every
token in its own singleton group. -/
theorem counter_strictly_increasing_singleton_groups :
    (∀ n : Nat, counterResults 0 n = List.range n) ∧
    (∀ n : Nat, List.Pairwise (· < ·) (counterResults 0 n)) ∧
    (∀ n : Nat, (counterResults 0 n).Nodup) ∧
    (∀ (tokens : List String) (c0 : Nat) (k : String) (vs : List String),
      lookupA (group_by_counter_all tokens c0) k = some vs →
        vs.length = 1) := by
  refine ⟨?_, ?_, ?_, ?_⟩
  · intro n
    rw [counterResults_eq_range', List.range_eq_range']
  · intro n
    exact pairwise_lt_counterResults 0 n
  · intro n
    exact (pairwise_lt_counterResults 0 n).imp ne_of_lt
  · intro tokens c0 k vs h
    exact counter_groups_singleton_aux tokens [] c0
      (fun c _ => rfl) (fun k' vs' h' => by simp [lookupA] at h') k vs h

/-- Witness for the C9 theorem: two tokens grouped by the counter land in the
singleton groups `"0"` and `"1"`. -/
theorem counter_singleton_groups_witness :
    lookupA (group_by_counter_all ["Zeroth", "First"] 0) "0" = some ["Zeroth"] ∧
    (["Zeroth"] : List String).length = 1 :=
  ⟨by decide,
    counter_strictly_increasing_singleton_groups.2.2.2 ["Zeroth", "First"] 0 "0"
      ["Zeroth"] (by decide)⟩

end Counter

section RegexRunner

/-- Model of the `regex` crate's `Captures` for one successful match: the
matched text of each numbered and named capture group that participated in
the match; group 0 is the whole match. -/
structure CapturesM where
  get : Nat → Option String
  name : String → Option String

/-- Model of a compiled `regex::Regex`: `captures` runs the pattern against a
string and yields the capture groups of the first match, if any. -/
structure RegexM where
  captures : String → Option CapturesM

/-- Embedding of `command_line::options::CaptureGroup` (options.rs). -/
inductive CaptureGroup where
  | Number (n : Nat)
  | Name (s : String)

/-- Embedding of `matchers::string::match_regex` (matchers/string.rs, the
three-argument version): on a match, returns the text of the requested
capture group, `none` when that group did not participate; `none` on no
match. -/
def match_regex (s : String) (re : RegexM) (cg : CaptureGroup) :
    Option String :=
  match re.captures s with
  | none => none
  | some captures =>
    match cg with
    | .Number n => captures.get n
    | .Name nm => captures.name nm

/-- Embedding of the two-argument `matchers::match_regex` (matchers.rs):
the first capture group's text if it participated, else the whole match.
This is the matcher that `Groupers::group_by_regex` (groupers/string.rs)
invokes as `match_regex(&line, regex)`. -/
def match_regex_legacy (line : String) (re : RegexM) : Option String :=
  match re.captures line with
  | some caps =>
    match caps.get 1 with
    | some mat => some mat
    | none =>
      match caps.get 0 with
      | some mat => some mat
      | none => none
  | none => none

/-- Embedding of the key computed by `Groupers::group_by_regex`
(groupers/string.rs): `match_regex(&line, regex).unwrap_or("").to_string()`. -/
def group_by_regex_key (line : String) (re : RegexM) : String :=
  (match_regex_legacy line re).getD ""

/-- Embedding of `command_line::options::GroupingSpecifier` (options.rs). -/
inductive GroupingSpecifier where
  | FirstChars (n : Nat)
  | LastChars (n : Nat)
  | Regex (re : RegexM) (cg : CaptureGroup)
  | FileExtension
  | Counter

/-- The group key computed by the closure `Runner::new` binds
(groupers/string.rs): the counter is threaded as state, and `none` models the
panic of the byte-slicing matchers on a non-boundary index. Note that the
`Regex` arm of the source drops the capture group (`Regex(re, _cg)`) and
calls the two-argument matcher. -/
def runnerKey : GroupingSpecifier → Nat → String → Option String × Nat
  | .FirstChars n, c, s => ((match_first_n_chars s.data n).map List.asString, c)
  | .LastChars n, c, s => ((match_last_n_chars s.data n).map List.asString, c)
  | .Regex re _cg, c, s => (some (group_by_regex_key s re), c)
  | .FileExtension, c, s =>
    (some (((match_file_extension s.data).getD []).asString), c)
  | .Counter, c, _ => (some (natRepr c), c + 1)

/-- The regex group key as claim C1 describes it (stated from the spec, for
comparison with the code): the requested group's text when it participated,
the whole match when group 0 was requested or the requested group did not
participate, and the empty string when the pattern does not match. -/
def claimedRegexKey (re : RegexM) (cg : CaptureGroup) (s : String) : String :=
  match re.captures s with
  | none => ""
  | some caps =>
    match cg with
    | .Number 0 => (caps.get 0).getD ""
    | .Number n => (caps.get n).getD ((caps.get 0).getD "")
    | .Name nm => (caps.name nm).getD ((caps.get 0).getD "")

/-- The captures of `\w+\W+(\w+)` on `"Bishop takes queen"`: the whole match
is `"Bishop takes"` and capture group 1 is `"takes"` (the spec's own
example). -/
def bishopCaptures : CapturesM where
  get := fun n =>
    if n = 0 then some "Bishop takes"
    else if n = 1 then some "takes"
    else none
  name := fun _ => none

/-- Point model of the compiled regex `\w+\W+(\w+)` at the input
`"Bishop takes queen"`. -/
def bishopRegex : RegexM where
  captures := fun s =>
    if s = "Bishop takes queen" then some bishopCaptures else none

/-- Claim C1 as stated fails: with specifier `Regex(\w+\W+(\w+), Number(0))`
on token `"Bishop takes queen"`, the claim requires the whole-match key
`"Bishop takes"` (group 0 was requested), but the Runner drops the requested
capture group and keys on capture group 1, producing `"takes"`. -/
theorem runner_regex_key_counterexample :
    (runnerKey (.Regex bishopRegex (.Number 0)) 0 "Bishop takes queen").1 =
      some "takes" ∧
    claimedRegexKey bishopRegex (.Number 0) "Bishop takes queen" =
      "Bishop takes" ∧
    ("takes" : String) ≠ "Bishop takes" := by
  decide

/-- Claim C1, amended: the Runner ignores the requested capture group: for
every compiled regex, requested capture group, token, and counter state, the
regex group key equals the text of capture group 1 when the pattern matches
and group 1 participated, else the whole match (group 0) when the pattern
matches, and the empty string when the pattern does not match; in particular
the key is independent of the requested capture group. -/
theorem runner_regex_key_ignores_capture_group (re : RegexM)
    (cg cg' : CaptureGroup) (s : String) (c : Nat) :
    (runnerKey (.Regex re cg) c s).1 = (runnerKey (.Regex re cg') c s).1 ∧
    (re.captures s = none → (runnerKey (.Regex re cg) c s).1 = some "") ∧
    (∀ caps, re.captures s = some caps →
      (runnerKey (.Regex re cg) c s).1 =
        some (((caps.get 1).orElse fun _ => caps.get 0).getD "")) := by
  refine ⟨rfl, ?_, ?_⟩
  · intro h
    simp [runnerKey, group_by_regex_key, match_regex_legacy, h]
  · intro caps h
    simp only [runnerKey, group_by_regex_key, match_regex_legacy, h]
    cases h1 : caps.get 1 with
    | some mat => simp [Option.orElse]
    | none =>
      cases h0 : caps.get 0 with
      | some mat => simp [Option.orElse]
      | none => simp [Option.orElse]

/-- Witness for the amended C1 theorem at the spec's own regex example. -/
theorem runner_regex_key_ignores_capture_group_witness :
    bishopRegex.captures "Bishop takes queen" = some bishopCaptures ∧
    (runnerKey (.Regex bishopRegex (.Number 0)) 0 "Bishop takes queen").1 =
      some (((bishopCaptures.get 1).orElse fun _ =>
        bishopCaptures.get 0).getD "") :=
  ⟨by simp [bishopRegex],
    (runner_regex_key_ignores_capture_group bishopRegex (.Number 0)
      (.Name "x") "Bishop takes queen" 0).2.2 bishopCaptures
      (by simp [bishopRegex])⟩

end RegexRunner

section Subprocess

/-- Model of one spawned child process: per claim C2's determinism
assumption, its captured standard output is a function of the full byte
stream fed to its standard input. Standard error is inherited, not captured,
and so not modelled. -/
structure ChildModel where
  onInput : List Char → List Char

/-- The writer side of a child's standard-input pipe: the bytes fed so far
and whether the writer has been closed (dropped). -/
structure PipeState where
  fed : List Char
  stdinClosed : Bool

/-- Model of `std::process::Child::wait_with_output` on the bare child: a
child that reads its standard input to end-of-file exits only once the
writer side of the stdin pipe is closed; `none` models the deadlock that
blocking without closing would cause (the hazard handle.rs documents). -/
def childWaitWithOutput (child : ChildModel) (s : PipeState) :
    Option (List Char) :=
  if s.stdinClosed then some (child.onInput s.fed) else none

/-- Embedding of `command_runner::Handle` (command_runner/handle.rs): the
child plus the `RecordWriter` over its standard input (the separator bytes
given at creation, and the pipe state). -/
structure Handle where
  child : ChildModel
  sep : List Char
  state : PipeState

/-- Embedding of `command_runner::run` / `Handle::new` (command_runner/run.rs,
handle.rs): spawn with piped stdin and stdout and wrap the child's stdin in a
`RecordWriter` carrying the separator; nothing fed yet, writer open. -/
def runHandle (child : ChildModel) (sep : String) : Handle :=
  ⟨child, sep.data, ⟨[], false⟩⟩

/-- Embedding of `RecordWriter::write` (record_writer.rs): write the value,
then the separator. -/
def stdinWrite (h : Handle) (value : String) : Handle :=
  { h with state :=
    { h.state with fed := h.state.fed ++ value.data ++ h.sep } }

/-- Embedding of `RecordWriter::write_all` (record_writer.rs): write every
value, each followed by the separator. -/
def stdinWriteAll (h : Handle) (values : List String) : Handle :=
  values.foldl stdinWrite h

/-- The two steps of `Handle::wait_with_output`, in order. -/
inductive HandleOp where
  | dropStdin
  | waitChild
deriving DecidableEq

/-- Embedding of `Handle::wait_with_output` (command_runner/handle.rs lines
39-42): `drop(self.stdin); self.child.wait_with_output()`. It consumes the
handle; the first component records the order of the two steps. -/
def wait_with_output (h : Handle) : List HandleOp × Option (List Char) :=
  let closed : PipeState := { h.state with stdinClosed := true }
  ([.dropStdin, .waitChild], childWaitWithOutput h.child closed)

/-- Claim C3: `wait_with_output` consumes the handle, closes the
standard-input writer strictly before blocking on process exit, and returns
the child's captured standard output; consequently it completes for every
amount of fed input, including zero. Blocking on an EOF-reading child
without closing stdin would hang (last conjunct), which the enforced order
avoids. -/
theorem wait_with_output_completes :
    (∀ h : Handle,
      (wait_with_output h).1 = [HandleOp.dropStdin, HandleOp.waitChild]) ∧
    (∀ h : Handle,
      (wait_with_output h).2 = some (h.child.onInput h.state.fed)) ∧
    (∀ (child : ChildModel) (sep : String),
      (wait_with_output (runHandle child sep)).2 = some (child.onInput [])) ∧
    (∀ (child : ChildModel) (fed : List Char),
      childWaitWithOutput child ⟨fed, false⟩ = none) :=
  ⟨fun _ => rfl, fun _ => rfl, fun _ _ => rfl, fun _ _ => rfl⟩

/-- Embedding of `ShellCommandOptions` (run_command.rs lines 33-51). -/
structure ShellCommandOptions where
  shell : String
  shell_args : List String
  line_separator : String
  only_group_names : Bool

/-- Embedding of `capture_command_output` (run_command.rs lines 202-224):
spawn the shell through `command_runner::run`, feed the group's key (when
`only_group_names`) or all of its values through the record writer, then
`wait_with_output` and return the captured standard output. -/
def capture_command_output (child : ChildModel)
    (options : ShellCommandOptions) (key : String) (values : List String) :
    List Char :=
  let handle := runHandle child options.line_separator
  let fedHandle :=
    if options.only_group_names then stdinWrite handle key
    else stdinWriteAll handle values
  ((wait_with_output fedHandle).2).getD []

theorem stdinWriteAll_fed (values : List String) (h : Handle) :
    (stdinWriteAll h values).child = h.child ∧
    (stdinWriteAll h values).state.stdinClosed = h.state.stdinClosed ∧
    (stdinWriteAll h values).state.fed =
      h.state.fed ++ (values.map (fun v => v.data ++ h.sep)).flatten := by
  induction values generalizing h with
  | nil => simp [stdinWriteAll]
  | cons v rest ih =>
    have step : stdinWriteAll h (v :: rest) = stdinWriteAll (stdinWrite h v) rest :=
      rfl
    obtain ⟨hc, hcl, hf⟩ := ih (stdinWrite h v)
    rw [step]
    refine ⟨hc, hcl, ?_⟩
    rw [hf]
    simp [stdinWrite]

/-- The `cat`-like child: echoes its standard input to its standard output. -/
def echoChild : ChildModel := ⟨fun l => l⟩

/-- The options of the source's `capture_command_output` tests: shell `-c
cat`, separator `"   "`, feeding group contents. -/
def dogOptions : ShellCommandOptions :=
  ⟨"/usr/bin/bash", ["-c", "cat"], "   ", false⟩

/-- Claim C6: `capture_command_output` feeds the subprocess exactly the
group's key followed by one separator when `only_group_names` is set, and
otherwise exactly the group's values in order, each followed by one
separator; feeding `["Fido","Sam","Spot"]` with separator `"   "` to a
command that echoes stdin yields `"Fido   Sam   Spot   "` (and the key
`"dogs"` alone yields `"dogs   "`). -/
theorem capture_command_output_feed (child : ChildModel)
    (options : ShellCommandOptions) (key : String) (values : List String) :
    (capture_command_output child options key values =
      child.onInput
        (if options.only_group_names then
          key.data ++ options.line_separator.data
         else
          (values.map (fun v => v.data ++ options.line_separator.data)).flatten)) ∧
    capture_command_output echoChild dogOptions "dogs"
      ["Fido", "Sam", "Spot"] = "Fido   Sam   Spot   ".data ∧
    capture_command_output echoChild
      { dogOptions with only_group_names := true } "dogs"
      ["Fido", "Sam", "Spot"] = "dogs   ".data := by
  refine ⟨?_, by decide, by decide⟩
  cases hg : options.only_group_names with
  | true =>
    simp [capture_command_output, hg, wait_with_output, childWaitWithOutput,
      stdinWrite, runHandle]
  | false =>
    obtain ⟨hc, hcl, hf⟩ :=
      stdinWriteAll_fed values (runHandle child options.line_separator)
    simp only [capture_command_output, hg, if_neg Bool.false_ne_true]
    rw [show (wait_with_output (stdinWriteAll
        (runHandle child options.line_separator) values)).2 =
      childWaitWithOutput
        (stdinWriteAll (runHandle child options.line_separator) values).child
        { (stdinWriteAll (runHandle child options.line_separator) values).state
          with stdinClosed := true } from rfl]
    rw [childWaitWithOutput]
    simp only [if_pos rfl]
    rw [hc, hf]
    simp [runHandle]

end Subprocess

section Strategies

variable {K V B : Type}

/-- Embedding of `Report::report` for `BTreeMap` / `HashMap` (report.rs):
insert-or-overwrite; the result map is modelled as a partial function. -/
def reportResult [DecidableEq K] (r : K → Option B) (k : K) (b : B) :
    K → Option B :=
  fun k2 => if k2 = k then some b else r k2

/-- Embedding of `run_commands_sequentially` (run_command.rs lines 148-164):
iterate the grouped collection's entries in its iteration order; for each
`(key, values)` run the per-group unit of work `f` (capture_command_output,
a deterministic function under claim C2's assumption) and report the result
under `key`. -/
def run_commands_sequentially [DecidableEq K] (f : K → V → B)
    (groups : List (K × V)) (results : K → Option B) : K → Option B :=
  groups.foldl (fun r kv => reportResult r kv.1 (f kv.1 kv.2)) results

/-- Embedding of `run_commands_in_parallel` (run_command.rs lines 127-139):
the rayon workers complete in an arbitrary order `sched` (a permutation of
the grouped collection's entries); each completion takes the mutex and
reports its group's result, so the run linearises to a fold over `sched`. -/
def run_commands_in_parallel [DecidableEq K] (f : K → V → B)
    (sched : List (K × V)) (results : K → Option B) : K → Option B :=
  sched.foldl (fun r kv => reportResult r kv.1 (f kv.1 kv.2)) results

theorem run_sequentially_isSome [DecidableEq K] (f : K → V → B)
    (groups : List (K × V)) (init : K → Option B) (k : K) :
    (run_commands_sequentially f groups init k).isSome ↔
      k ∈ groups.map Prod.fst ∨ (init k).isSome := by
  induction groups generalizing init with
  | nil => simp [run_commands_sequentially]
  | cons kv rest ih =>
    obtain ⟨k0, v0⟩ := kv
    show (run_commands_sequentially f rest
        (reportResult init k0 (f k0 v0)) k).isSome ↔ _
    rw [ih]
    simp only [List.map_cons, List.mem_cons]
    by_cases hk : k = k0
    · subst hk
      simp [reportResult]
    · simp [reportResult, hk]

/-- Claim C2: with each subprocess's output a deterministic function of the
bytes fed to it, the parallel strategy (any completion order of the groups)
and the sequential strategy produce identical key-to-captured-output maps,
and the sequential result's key set is exactly the grouped collection's key
set. -/
theorem parallel_sequential_equivalence [DecidableEq K] (f : K → V → B)
    (groups sched : List (K × V)) (results : K → Option B)
    (hperm : sched.Perm groups) (hnodup : (groups.map Prod.fst).Nodup) :
    run_commands_in_parallel f sched results =
      run_commands_sequentially f groups results ∧
    (∀ k, (run_commands_sequentially f groups (fun _ => none) k).isSome ↔
      k ∈ groups.map Prod.fst) := by
  constructor
  · have hnds : (sched.map Prod.fst).Nodup :=
      ((hperm.map Prod.fst).nodup_iff).mpr hnodup
    have hpw : sched.Pairwise (fun a b : K × V => a.1 ≠ b.1) :=
      List.pairwise_map.mp hnds
    have hneq := hpw.forall (fun x y h => h.symm)
    refine hperm.foldl_eq' ?_ results
    intro x hx y hy z
    by_cases hxy : x = y
    · subst hxy
      rfl
    · have hk : x.1 ≠ y.1 := hneq hx hy hxy
      funext k2
      simp only [reportResult]
      by_cases h1 : k2 = y.1
      · subst h1
        rw [if_pos rfl, if_neg (fun he => hk he.symm), if_pos rfl]
      · by_cases h2 : k2 = x.1
        · subst h2
          rw [if_neg h1, if_pos rfl, if_pos rfl]
        · rw [if_neg h1, if_neg h2, if_neg h2, if_neg h1]
  · intro k
    rw [run_sequentially_isSome]
    simp

/-- Witness for the C2 theorem at a concrete two-group collection with the
parallel schedule reversed. -/
theorem parallel_sequential_equivalence_witness :
    ([(2, 20), (1, 10)] : List (Nat × Nat)).Perm [(1, 10), (2, 20)] ∧
    (([(1, 10), (2, 20)] : List (Nat × Nat)).map Prod.fst).Nodup ∧
    run_commands_in_parallel (fun _ v => v) [(2, 20), (1, 10)]
        (fun _ => none) =
      run_commands_sequentially (fun _ v => v) [(1, 10), (2, 20)]
        (fun _ => none) :=
  ⟨by decide, by decide,
    (parallel_sequential_equivalence (fun _ v => v) [(1, 10), (2, 20)]
      [(2, 20), (1, 10)] (fun _ => none) (by decide) (by decide)).1⟩

end Strategies

section BuildGroups

/-- First index at which `sep` occurs as a sub-list of `l`, if any; model of
`str::find` used inside Rust's `str::split` with a string pattern. -/
def firstMatchIdx (sep : List Char) : List Char → Option Nat
  | [] => if sep.isPrefixOf ([] : List Char) then some 0 else none
  | c :: rest =>
    if sep.isPrefixOf (c :: rest) then some 0
    else (firstMatchIdx sep rest).map (· + 1)

theorem firstMatchIdx_lt (sep : List Char) (hsep : sep ≠ []) :
    ∀ l i, firstMatchIdx sep l = some i → i < l.length := by
  intro l
  induction l with
  | nil =>
    intro i h
    obtain ⟨c, t, rfl⟩ : ∃ c t, sep = c :: t := by
      cases sep with
      | nil => exact absurd rfl hsep
      | cons c t => exact ⟨c, t, rfl⟩
    simp [firstMatchIdx, List.isPrefixOf] at h
  | cons c rest ih =>
    intro i h
    rw [firstMatchIdx] at h
    by_cases hp : sep.isPrefixOf (c :: rest)
    · rw [if_pos hp] at h
      simp at h
      subst h
      simp
    · rw [if_neg hp] at h
      cases hr : firstMatchIdx sep rest with
      | none => rw [hr] at h; simp at h
      | some j =>
        rw [hr] at h
        simp at h
        subst h
        have := ih j hr
        simp only [List.length_cons]
        omega

theorem firstMatchIdx_prefix (sep : List Char) :
    ∀ l i, firstMatchIdx sep l = some i → sep <+: l.drop i := by
  intro l
  induction l with
  | nil =>
    intro i h
    rw [firstMatchIdx] at h
    by_cases hp : sep.isPrefixOf ([] : List Char)
    · rw [if_pos hp] at h
      simp at h
      subst h
      exact List.isPrefixOf_iff_prefix.mp hp
    · rw [if_neg hp] at h
      simp at h
  | cons c rest ih =>
    intro i h
    rw [firstMatchIdx] at h
    by_cases hp : sep.isPrefixOf (c :: rest)
    · rw [if_pos hp] at h
      simp at h
      subst h
      exact List.isPrefixOf_iff_prefix.mp hp
    · rw [if_neg hp] at h
      cases hr : firstMatchIdx sep rest with
      | none => rw [hr] at h; simp at h
      | some j =>
        rw [hr] at h
        simp at h
        subst h
        simpa using ih j hr

/-- Model of Rust `str::split` with a non-empty string pattern, with
structural fuel: repeatedly take the piece before the first occurrence of
`sep` and continue after it; the final piece (with no further occurrence) is
kept even when empty. With fuel exhausted (unreachable when fuel exceeds the
input length) the rest is returned as one piece. -/
def rustSplitAux (sep : List Char) : Nat → List Char → List (List Char)
  | 0, l => [l]
  | fuel + 1, l =>
    match firstMatchIdx sep l with
    | none => [l]
    | some i => l.take i :: rustSplitAux sep fuel (l.drop (i + sep.length))

/-- Model of Rust `str::split(sep)` for a string pattern `sep` (the
`Separator::Custom` arm of build_groups.rs splits the whole buffered input
with it, keeping empty pieces). -/
def rustSplit (sep l : List Char) : List (List Char) :=
  if sep = [] then [l] else rustSplitAux sep (l.length + 1) l

/-- Join a list of pieces, interposing `sep`; the inverse of a split that
loses nothing. -/
def joinWith (sep : List Char) : List (List Char) → List Char
  | [] => []
  | [x] => x
  | x :: xs => x ++ sep ++ joinWith sep xs

theorem rustSplitAux_ne_nil (sep : List Char) (fuel : Nat) (l : List Char) :
    rustSplitAux sep fuel l ≠ [] := by
  cases fuel with
  | zero => simp [rustSplitAux]
  | succ f =>
    rw [rustSplitAux]
    cases firstMatchIdx sep l with
    | none => simp
    | some i => simp

theorem joinWith_cons (sep : List Char) (x : List Char)
    (xs : List (List Char)) (hxs : xs ≠ []) :
    joinWith sep (x :: xs) = x ++ sep ++ joinWith sep xs := by
  cases xs with
  | nil => exact absurd rfl hxs
  | cons y ys => rfl

theorem rustSplitAux_join (sep : List Char) (hsep : sep ≠ []) :
    ∀ fuel l, l.length < fuel → joinWith sep (rustSplitAux sep fuel l) = l := by
  intro fuel
  induction fuel with
  | zero => omega
  | succ f ih =>
    intro l hl
    rw [rustSplitAux]
    cases hfind : firstMatchIdx sep l with
    | none => rfl
    | some i =>
      have hi : i < l.length := firstMatchIdx_lt sep hsep l i hfind
      have hs : 0 < sep.length := List.length_pos.mpr hsep
      rw [joinWith_cons sep _ _ (rustSplitAux_ne_nil sep f _)]
      rw [ih (l.drop (i + sep.length)) (by simp; omega)]
      obtain ⟨t, ht⟩ := firstMatchIdx_prefix sep l i hfind
      have hdrop : l.drop (i + sep.length) = t := by
        have h1 : l.drop (i + sep.length) = (l.drop i).drop sep.length := by
          rw [List.drop_drop]
        rw [h1, ← ht, List.drop_left]
      rw [hdrop]
      conv_rhs => rw [← List.take_append_drop i l, ← ht]
      simp

/-- The tokens the `Separator::Custom(s)` arm of `build_groups`
(build_groups.rs lines 82-95) feeds to the Runner: the whole buffered input
split on `s`, in order, empty tokens included. -/
def customTokens (input sep : List Char) : List (List Char) :=
  rustSplit sep input

/-- Model of `BufRead::lines` composed over the whole input: split on
newline, drop the one empty piece a trailing newline produces, strip a
trailing carriage return from each line. -/
def stripCR (l : List Char) : List Char :=
  if l.getLast? = some '\r' then l.dropLast else l

def linesOf (input : List Char) : List (List Char) :=
  let raw := input.splitOnP (fun c => c = '\n')
  (if raw.getLast? = some [] then raw.dropLast else raw).map stripCR

/-- The tokens the `Separator::Space` arm of `build_groups` (build_groups.rs
lines 61-74) feeds to the Runner: each line is split on every whitespace
character, and words consisting entirely of whitespace (in particular the
empty words produced by adjacent whitespace) are skipped. -/
def spaceTokens (input : List Char) : List (List Char) :=
  ((linesOf input).map (fun line =>
    (line.splitOnP (fun c => c.isWhitespace)).filter
      (fun w => !(w.all Char.isWhitespace)))).flatten

/-- Claim C10: with `Separator::Custom(s)`, `build_groups` reads the entire
input (a trailing newline stays part of the final token) and splits it on `s`
without discarding empty tokens — interposing `s` between the tokens
restores the input exactly, and adjacent, leading, or trailing occurrences of
`s` each yield an empty token — whereas whitespace splitting never produces
an empty token. -/
theorem custom_separator_keeps_empty_tokens (input sep : List Char)
    (hsep : sep ≠ []) :
    joinWith sep (customTokens input sep) = input ∧
    (∀ t ∈ spaceTokens input, t ≠ []) ∧
    customTokens ",a,,b,".data ",".data =
      [[], "a".data, [], "b".data, []] ∧
    customTokens "a,b\n".data ",".data = ["a".data, "b\n".data] ∧
    spaceTokens "1 2  3".data = ["1".data, "2".data, "3".data] := by
  refine ⟨?_, ?_, by decide, by decide, by decide⟩
  · rw [customTokens, rustSplit, if_neg hsep]
    exact rustSplitAux_join sep hsep (input.length + 1) input (by omega)
  · intro t ht
    simp only [spaceTokens, List.mem_flatten, List.mem_map] at ht
    obtain ⟨l, ⟨line, _, rfl⟩, htl⟩ := ht
    have := (List.mem_filter.mp htl).2
    intro hemp
    subst hemp
    simp at this

/-- Witness for the C10 theorem: splitting `"aZZb"` on `"Z"` keeps the empty
middle token and joining restores the input. -/
theorem custom_separator_keeps_empty_tokens_witness :
    ("Z".data ≠ []) ∧
    joinWith "Z".data (customTokens "aZZb".data "Z".data) = "aZZb".data :=
  ⟨by decide,
    (custom_separator_keeps_empty_tokens "aZZb".data "Z".data (by decide)).1⟩

end BuildGroups

section MainPipeline

/-- Observable events of one run of the `groupby` binary; `panicked` is a
Rust panic aborting the process (process exit code 101), as a byte-slicing
matcher raises on a non-boundary index. -/
inductive Event where
  | grouped (key : String) (token : String)
  | fatalExit (code : Nat)
  | spawned (shell : String)
  | printed (key : String)
  | panicked
deriving DecidableEq

def isFatal : Event → Bool
  | .fatalExit _ => true
  | _ => false

def isGrouped : Event → Bool
  | .grouped _ _ => true
  | _ => false

def isSpawned : Event → Bool
  | .spawned _ => true
  | _ => false

def isPrinted : Event → Bool
  | .printed _ => true
  | _ => false

/-- The options of the binary that matter to claim C7. -/
structure MainOptions where
  grouping : GroupingSpecifier
  run_command : Option String

/-- The `(key, token)` pairs the input-processing stage accumulates, keying
each token through the Runner (counter threaded, starting at `c`): `none`
when some token's matcher panics (`runnerKey` yields `none`), aborting the
run during grouping. -/
def processInputPairs (opts : MainOptions) :
    List String → Nat → List (String × String) →
      Option (List (String × String))
  | [], _, acc => some acc
  | t :: rest, c, acc =>
    match runnerKey opts.grouping c t with
    | (none, _) => none
    | (some k, c2) => processInputPairs opts rest c2 (acc ++ [(k, t)])

/-- The events of the grouping stage (`process_input` in bin/groupby.rs,
`build_groups` in the library): each token in order is keyed and added to
the grouped collection; a matcher panic aborts the whole process right
there, so nothing after the panic runs. -/
def processInputTrace (opts : MainOptions) :
    List String → Nat → List Event
  | [], _ => []
  | t :: rest, c =>
    match runnerKey opts.grouping c t with
    | (none, _) => [Event.panicked]
    | (some k, c2) => Event.grouped k t :: processInputTrace opts rest c2

/-- The output stage (`output_results` in bin/groupby.rs; `current_shell` in
run_command.rs): when a command was requested, the `SHELL` environment
variable is resolved first — its absence prints an error and exits with
code 1 — and only then is one subprocess spawned per group; without a
command, each group is printed. -/
def outputResultsTrace (shellEnv : Option String) (opts : MainOptions)
    (keys : List String) : List Event :=
  match opts.run_command with
  | none => keys.map Event.printed
  | some _ =>
    match shellEnv with
    | none => [Event.fatalExit 1]
    | some sh => keys.map (fun _ => Event.spawned sh)

/-- Embedding of `main` (bin/groupby.rs lines 11-17): grouping first
(`process_input`), then the output stage (`output_results`); a matcher panic
during grouping aborts the process there, so the output stage — and with it
the `SHELL` resolution — never runs. -/
def mainTrace (shellEnv : Option String) (opts : MainOptions)
    (tokens : List String) : List Event :=
  match processInputPairs opts tokens 0 [] with
  | none => processInputTrace opts tokens 0
  | some pairs =>
    processInputTrace opts tokens 0 ++
      outputResultsTrace shellEnv opts ((buildH pairs).map Prod.fst)

/-- The options of a run that requests `-c cat` grouping by first character. -/
def catOpts : MainOptions := ⟨.FirstChars 1, some "cat"⟩

theorem processInputTrace_no_panic (opts : MainOptions) :
    ∀ (tokens : List String) (c : Nat) (acc : List (String × String)),
      (processInputPairs opts tokens c acc).isSome →
      ∀ e ∈ processInputTrace opts tokens c, isGrouped e = true := by
  intro tokens
  induction tokens with
  | nil =>
    intro c acc _ e he
    simp [processInputTrace] at he
  | cons t rest ih =>
    intro c acc hs e he
    cases hr : runnerKey opts.grouping c t with
    | mk k1 c2 =>
      cases k1 with
      | none =>
        simp only [processInputPairs, hr] at hs
        simp at hs
      | some k =>
        simp only [processInputPairs, hr] at hs
        simp only [processInputTrace, hr, List.mem_cons] at he
        rcases he with rfl | he
        · rfl
        · exact ih c2 (acc ++ [(k, t)]) hs e he

/-- The byte-slicing panic path of the model: grouping `"é"` by its first
byte panics during grouping, aborting the run before any shell resolution
or output. -/
theorem grouping_panic_aborts_run :
    mainTrace none catOpts ["é"] = [Event.panicked] := by
  decide

/-- Claim C7 as stated fails: with `SHELL` absent, one input token and
`-c cat` requested, the run does exit fatally, but the grouping of the token
happens *before* the missing-shell error (the shell is only resolved in the
output stage), so the error is not raised before grouping work proceeds. -/
theorem shell_check_after_grouping_counterexample :
    Event.fatalExit 1 ∈ mainTrace none catOpts ["a"] ∧
    ((mainTrace none catOpts ["a"]).takeWhile
      (fun e => !(isFatal e))).all (fun e => !(isGrouped e)) = false := by
  decide

/-- Claim C7, amended: whenever command execution is requested, `SHELL` is
absent, and grouping completes without a matcher panic, the run fails with a
fatal, user-visible error and the non-zero exit code 1; the error is raised
after grouping completes (the whole trace is grouping events followed by the
fatal exit) but before any subprocess is spawned and before any per-group
output is produced, so the run produces no output. (When a matcher panics,
the run instead aborts already during grouping, before the `SHELL` check.) -/
theorem shell_missing_fatal (opts : MainOptions) (tokens : List String)
    (hc : opts.run_command ≠ none)
    (hg : (processInputPairs opts tokens 0 []).isSome) :
    mainTrace none opts tokens =
      processInputTrace opts tokens 0 ++ [Event.fatalExit 1] ∧
    Event.fatalExit 1 ∈ mainTrace none opts tokens ∧
    (∀ e ∈ processInputTrace opts tokens 0, isGrouped e = true) ∧
    (∀ c, Event.fatalExit c ∈ mainTrace none opts tokens → c ≠ 0) ∧
    (∀ e ∈ mainTrace none opts tokens,
      isSpawned e = false ∧ isPrinted e = false) := by
  obtain ⟨cmd, hcmd⟩ := Option.ne_none_iff_exists'.mp hc
  obtain ⟨pairs, hpairs⟩ := Option.isSome_iff_exists.mp hg
  have hgrp : ∀ e ∈ processInputTrace opts tokens 0, isGrouped e = true :=
    processInputTrace_no_panic opts tokens 0 [] hg
  have htr : mainTrace none opts tokens =
      processInputTrace opts tokens 0 ++ [Event.fatalExit 1] := by
    simp only [mainTrace, hpairs, outputResultsTrace, hcmd]
  refine ⟨htr, ?_, hgrp, ?_, ?_⟩
  · rw [htr]
    exact List.mem_append_right _ (List.mem_singleton_self _)
  · intro c hcmem
    rw [htr] at hcmem
    rcases List.mem_append.mp hcmem with hm | hm
    · have := hgrp _ hm
      simp [isGrouped] at this
    · rw [List.mem_singleton] at hm
      injection hm with hm
      omega
  · intro e hmem
    rw [htr] at hmem
    rcases List.mem_append.mp hmem with hm | hm
    · have := hgrp _ hm
      cases e <;> first
        | exact ⟨rfl, rfl⟩
        | simp [isGrouped] at this
    · rw [List.mem_singleton] at hm
      subst hm
      exact ⟨rfl, rfl⟩

/-- Witness for the amended C7 theorem at a concrete one-token run whose
grouping succeeds. -/
theorem shell_missing_fatal_witness :
    (catOpts.run_command ≠ none) ∧
    (processInputPairs catOpts ["a"] 0 []).isSome ∧
    Event.fatalExit 1 ∈ mainTrace none catOpts ["a"] :=
  ⟨by decide, by decide,
    (shell_missing_fatal catOpts ["a"] (by decide) (by decide)).2.1⟩

end MainPipeline

end Groupby
